import Mathlib

/-!
Verification of the pycord in-memory cache (`discord/app/cache.py`,
class `MemoryCache`) and event emitter (`discord/app/event_emitter.py`,
class `EventEmitter`) against their natural-language specification.

Python dictionaries and `collections.OrderedDict` are embedded as
association lists that keep insertion order: a plain `dict` preserves
insertion order in Python 3.7+, and `OrderedDict` additionally supports
`move_to_end` and `popitem(last=False)`.  Assignment to an existing key
updates the value in place and does NOT change the key's position, for
both `dict` and `OrderedDict`.
-/

/-- Keys of an insertion-ordered dictionary, in order. -/
def odKeys {κ α : Type} (m : List (κ × α)) : List κ := m.map Prod.fst

/-- Dictionary lookup, `d.get(k)` / `d[k]`: first entry with the key. -/
def odGet? {κ α : Type} [DecidableEq κ] (m : List (κ × α)) (k : κ) : Option α :=
  (m.find? (fun p => p.1 = k)).map Prod.snd

/-- Dictionary assignment `d[k] = v`: an existing key keeps its position and
gets the new value; a new key is appended at the end (most recent). -/
def odSet {κ α : Type} [DecidableEq κ] (m : List (κ × α)) (k : κ) (v : α) : List (κ × α) :=
  if k ∈ odKeys m then m.map (fun p => if p.1 = k then (k, v) else p)
  else m ++ [(k, v)]

/-- Dictionary removal `d.pop(k, default)`: drops the entry with the key. -/
def odPop {κ α : Type} [DecidableEq κ] (m : List (κ × α)) (k : κ) : List (κ × α) :=
  m.filter (fun p => p.1 ≠ k)

/-- The `OrderedDict.move_to_end(k)` operation: the entry with the key is
moved to the most-recently-used end. -/
def odMoveToEnd {κ α : Type} [DecidableEq κ] (m : List (κ × α)) (k : κ) : List (κ × α) :=
  match m.find? (fun p => p.1 = k) with
  | none => m
  | some p => odPop m k ++ [p]

theorem odKeys_cons {κ α : Type} (p : κ × α) (m : List (κ × α)) :
    odKeys (p :: m) = p.1 :: odKeys m := rfl

theorem odKeys_append {κ α : Type} (m n : List (κ × α)) :
    odKeys (m ++ n) = odKeys m ++ odKeys n := by
  simp [odKeys]

section OdLemmas

variable {κ α : Type} [DecidableEq κ]

theorem map_update_eq_self {m : List (κ × α)} {k : κ} (v : α) (h : k ∉ odKeys m) :
    m.map (fun p => if p.1 = k then (k, v) else p) = m := by
  induction m with
  | nil => rfl
  | cons p rest ih =>
    rw [odKeys_cons, List.mem_cons, not_or] at h
    rw [List.map_cons, if_neg (fun he => h.1 he.symm), ih h.2]

theorem odGet?_cons_self {p : κ × α} {m : List (κ × α)} {k : κ} (h : p.1 = k) :
    odGet? (p :: m) k = some p.2 := by
  unfold odGet?
  rw [List.find?_cons_of_pos _ (by simpa using h)]
  rfl

theorem odGet?_cons_ne {p : κ × α} {m : List (κ × α)} {k : κ} (h : p.1 ≠ k) :
    odGet? (p :: m) k = odGet? m k := by
  unfold odGet?
  rw [List.find?_cons_of_neg _ (by simpa using h)]

theorem odKeys_odSet (m : List (κ × α)) (k : κ) (v : α) :
    odKeys (odSet m k v) = if k ∈ odKeys m then odKeys m else odKeys m ++ [k] := by
  unfold odSet
  by_cases h : k ∈ odKeys m
  · rw [if_pos h, if_pos h]
    unfold odKeys
    rw [List.map_map]
    apply List.map_congr_left
    intro p _
    by_cases hp : p.1 = k
    · simp [hp, Function.comp]
    · simp [hp, Function.comp]
  · rw [if_neg h, if_neg h]
    simp [odKeys]

theorem length_odSet (m : List (κ × α)) (k : κ) (v : α) :
    (odSet m k v).length = if k ∈ odKeys m then m.length else m.length + 1 := by
  unfold odSet
  by_cases h : k ∈ odKeys m <;> simp [h]

theorem odGet?_eq_none (m : List (κ × α)) (k : κ) (h : k ∉ odKeys m) :
    odGet? m k = none := by
  unfold odGet?
  rw [List.find?_eq_none.mpr]
  · rfl
  · intro p hp
    simp only [decide_eq_true_eq]
    intro hk
    exact h (hk ▸ List.mem_map_of_mem Prod.fst hp)

theorem mem_odKeys_of_odGet?_eq_some {m : List (κ × α)} {k : κ} {v : α}
    (h : odGet? m k = some v) : k ∈ odKeys m := by
  by_contra hk
  rw [odGet?_eq_none m k hk] at h
  exact Option.noConfusion h

theorem odGet?_append_left {m n : List (κ × α)} {k : κ} {v : α}
    (h : odGet? m k = some v) : odGet? (m ++ n) k = some v := by
  unfold odGet? at h ⊢
  rw [List.find?_append]
  cases hf : m.find? (fun p => p.1 = k) with
  | none => rw [hf] at h; exact Option.noConfusion h
  | some p => rw [hf] at h; simpa using h

theorem odGet?_append_right {m n : List (κ × α)} {k : κ}
    (h : k ∉ odKeys m) : odGet? (m ++ n) k = odGet? n k := by
  unfold odGet?
  rw [List.find?_append]
  have hm : m.find? (fun p => p.1 = k) = none := by
    rw [List.find?_eq_none]
    intro p hp
    simp only [decide_eq_true_eq]
    intro hk
    exact h (hk ▸ List.mem_map_of_mem Prod.fst hp)
  rw [hm, Option.none_or]

theorem odGet?_singleton (k : κ) (v : α) : odGet? [(k, v)] k = some v :=
  odGet?_cons_self rfl

theorem odGet?_mem_of_nodup {m : List (κ × α)} {k : κ} {v : α}
    (hnd : (odKeys m).Nodup) (hmem : (k, v) ∈ m) : odGet? m k = some v := by
  induction m with
  | nil => cases hmem
  | cons p rest ih =>
    rcases List.mem_cons.mp hmem with h | h
    · subst h
      exact odGet?_cons_self rfl
    · have hk : p.1 ≠ k := by
        intro he
        rw [odKeys_cons, List.nodup_cons] at hnd
        exact hnd.1 (he ▸ List.mem_map_of_mem Prod.fst h)
      rw [odGet?_cons_ne hk]
      rw [odKeys_cons, List.nodup_cons] at hnd
      exact ih hnd.2 h

theorem odKeys_odPop (m : List (κ × α)) (k : κ) :
    odKeys (odPop m k) = (odKeys m).filter (fun x => x ≠ k) := by
  unfold odPop odKeys
  induction m with
  | nil => rfl
  | cons p rest ih =>
    by_cases h : p.1 = k
    · simp only [List.filter_cons, List.map_cons]
      rw [if_neg (by simpa using h), if_neg (by simpa using h)]
      exact ih
    · simp only [List.filter_cons, List.map_cons]
      rw [if_pos (by simpa using h), if_pos (by simpa using h)]
      simpa using ih

theorem odGet?_odPop_self (m : List (κ × α)) (k : κ) : odGet? (odPop m k) k = none := by
  apply odGet?_eq_none
  rw [odKeys_odPop]
  intro h
  have := List.of_mem_filter h
  simp at this

theorem odGet?_odPop_ne (m : List (κ × α)) {k k2 : κ} (h : k2 ≠ k) :
    odGet? (odPop m k) k2 = odGet? m k2 := by
  unfold odPop
  induction m with
  | nil => rfl
  | cons p rest ih =>
    by_cases hp : p.1 = k
    · rw [List.filter_cons, if_neg (by simpa using hp)]
      rw [odGet?_cons_ne (fun he => h (he.symm.trans hp))]
      exact ih
    · rw [List.filter_cons, if_pos (by simpa using hp)]
      by_cases hq : p.1 = k2
      · rw [odGet?_cons_self hq, odGet?_cons_self hq]
      · rw [odGet?_cons_ne hq, odGet?_cons_ne hq]
        exact ih

theorem nodup_odKeys_odSet (m : List (κ × α)) (k : κ) (v : α)
    (h : (odKeys m).Nodup) : (odKeys (odSet m k v)).Nodup := by
  rw [odKeys_odSet]
  by_cases hk : k ∈ odKeys m
  · simpa [hk] using h
  · rw [if_neg hk]
    simpa [List.nodup_append] using ⟨h, hk⟩

theorem mem_odKeys_odSet_self (m : List (κ × α)) (k : κ) (v : α) :
    k ∈ odKeys (odSet m k v) := by
  rw [odKeys_odSet]
  by_cases hk : k ∈ odKeys m
  · simp only [hk, if_true]
  · simp [hk]

theorem odGet?_eq_none_iff (m : List (κ × α)) (k : κ) :
    odGet? m k = none ↔ k ∉ odKeys m := by
  constructor
  · intro h hk
    rcases List.mem_map.mp hk with ⟨p, hp, hpk⟩
    unfold odGet? at h
    rcases hf : m.find? (fun q => q.1 = k) with _ | q
    · rw [List.find?_eq_none] at hf
      exact hf p hp (by simpa using hpk)
    · rw [hf] at h
      exact Option.noConfusion h
  · exact odGet?_eq_none m k

theorem odGet?_odSet_self (m : List (κ × α)) (k : κ) (v : α) :
    odGet? (odSet m k v) k = some v := by
  unfold odSet
  by_cases hk : k ∈ odKeys m
  · rw [if_pos hk]
    induction m with
    | nil => cases hk
    | cons p rest ih =>
      by_cases hp : p.1 = k
      · rw [List.map_cons, if_pos hp]
        exact odGet?_cons_self rfl
      · have hk2 : k ∈ odKeys rest := by
          rcases List.mem_cons.mp hk with h | h
          · exact absurd h.symm hp
          · exact h
        rw [List.map_cons, if_neg hp]
        rw [odGet?_cons_ne hp]
        exact ih hk2
  · rw [if_neg hk]
    rw [odGet?_append_right hk]
    exact odGet?_singleton k v

theorem odGet?_odSet_ne (m : List (κ × α)) {k k2 : κ} (v : α) (h : k2 ≠ k) :
    odGet? (odSet m k v) k2 = odGet? m k2 := by
  unfold odSet
  by_cases hk : k ∈ odKeys m
  · rw [if_pos hk]
    induction m with
    | nil => rfl
    | cons p rest ih =>
      by_cases hp : p.1 = k
      · rw [List.map_cons, if_pos hp]
        rw [odGet?_cons_ne (fun he : (k, v).1 = k2 => h he.symm)]
        rw [odGet?_cons_ne (fun he => h (he.symm.trans hp))]
        by_cases hk2 : k ∈ odKeys rest
        · exact ih hk2
        · rw [map_update_eq_self v hk2]
      · rw [List.map_cons, if_neg hp]
        by_cases hq : p.1 = k2
        · rw [odGet?_cons_self hq, odGet?_cons_self hq]
        · rw [odGet?_cons_ne hq, odGet?_cons_ne hq]
          have hk2 : k ∈ odKeys rest := by
            rcases List.mem_cons.mp hk with h2 | h2
            · exact absurd h2.symm hp
            · exact h2
          exact ih hk2
  · rw [if_neg hk]
    unfold odGet?
    rw [List.find?_append, List.find?_cons_of_neg _ (by simpa using fun he : k = k2 => h he.symm)]
    simp

end OdLemmas

/-! ## Data model of the Entity Store (`discord/app/cache.py`) -/

/-- Raw user payload handed to `store_user`; the source reads `payload["id"]`
(converted with `int`) and the constructed user's discriminator. -/
structure UserPayload where
  id : Nat
  discriminator : String
deriving DecidableEq

/-- Modelled from the spec: the `User` domain object (class `User`, not under
src/) is constructed from the payload and carries its id and discriminator;
`stored` is the `_stored` flag that `store_user` sets on the cached object. -/
structure DUser where
  id : Nat
  discriminator : String
  stored : Bool
deriving DecidableEq

/-- A guild as the cache reads it: only `guild.id` is used. -/
structure RGuild where
  id : Nat
deriving DecidableEq

/-- Raw sticker payload; only its id matters to the cache. -/
structure StickerPayload where
  id : Nat
deriving DecidableEq

/-- Modelled from the spec: `GuildSticker(state, data)` (class not under src/)
materializes the payload; the cache only appends and pops whole entries. -/
structure RSticker where
  id : Nat
deriving DecidableEq

/-- A message as the ring buffer stores it: `get_message` reads only `id`;
`tag` stands for the rest of the object so that two entries with the same id
(an update following a create) remain distinguishable. -/
structure Msg where
  id : Nat
  tag : Nat
deriving DecidableEq

/-- A view (persistent UI component tree): its own `id` and the optional
message (`view.message`) it is attached to. -/
structure RView where
  id : Nat
  message : Option Msg
deriving DecidableEq

/-- A modal; `store_modal` keys it by `modal.custom_id`. -/
structure RModal where
  custom_id : String
deriving DecidableEq

/-- A private channel: `isDM` marks `DMChannel` instances (the
`isinstance(..., DMChannel)` checks) and `recipient` its optional known peer
user id (`channel.recipient.id`; `none` models a falsy recipient). -/
structure PChannel where
  id : Nat
  isDM : Bool
  recipient : Option Nat
deriving DecidableEq

/-- The peer user of a channel, when it is a DM channel with a truthy
recipient: this is the guard `isinstance(c, DMChannel) and c.recipient`. -/
def peer (c : PChannel) : Option Nat := if c.isDM then c.recipient else none

/-- Raw emoji payload; only its id matters to the cache. -/
structure EmojiPayload where
  id : Nat
deriving DecidableEq

/-- Tagged emoji variant: guild-owned (`GuildEmoji`, owner key `guild_id`) or
application-owned (`AppEmoji`, owner key `application_id`); `eid` is the
emoji's own id. -/
inductive REmoji where
  | guild (guild_id : Nat) (eid : Nat)
  | app (application_id : Nat) (eid : Nat)
deriving DecidableEq

/-- The emoji's own id. -/
def REmoji.eid : REmoji → Nat
  | .guild _ e => e
  | .app _ e => e

/-- The owner-list key, resolved by variant exactly as `delete_emoji` does:
`emoji.application_id` when `isinstance(emoji, AppEmoji)`, else
`emoji.guild_id`. -/
def REmoji.ownerId : REmoji → Nat
  | .app application_id _ => application_id
  | .guild guild_id _ => guild_id

/-- Python exceptions surfaced by the embedded operations. -/
inductive PyErr where
  | typeError
  | keyError
  | valueError
deriving DecidableEq

/-- The state of a `MemoryCache`: one container per entity kind, exactly the
instance attributes assigned in `clear` (plus `max_messages` from
`__init__`).  Polls are opaque. -/
structure CacheState where
  users : List (Nat × DUser)
  guilds : List (Nat × RGuild)
  polls : List (Nat × Nat)
  stickers : List (Nat × List RSticker)
  views : List (String × RView)
  modals : List (String × RModal)
  messages : List Msg
  emojis : List (Nat × List REmoji)
  privateChannels : List (Nat × PChannel)
  privateChannelsByUser : List (Nat × PChannel)
  maxMessages : Option Nat
deriving DecidableEq

/-- The all-empty store with a given `max_messages`: the state that
`__init__`/`clear` aim for (see `clear` for what line 189 actually does). -/
def initialCache (maxM : Option Nat) : CacheState :=
  { users := [], guilds := [], polls := [], stickers := [], views := [],
    modals := [], messages := [], emojis := [], privateChannels := [],
    privateChannelsByUser := [], maxMessages := maxM }

/-- Faithful translation of `MemoryCache.clear(views=True)`.  The method
resets users, guilds, polls and stickers, resets the view map only WHEN the
flag is set (`if views: self._views = {}`), then resets modals and messages
(a fresh deque with `self.max_messages`).  Line 189 is the chained assignment
`self._emojis = dict[str, GuildEmoji | AppEmoji] = {}`: its first target
rebinds `self._emojis` to `{}`, its second target is an item assignment on
the builtin `dict` type itself, which raises TypeError, so the
private-channel map and its secondary index (lines 191-192) are never
re-initialized.  The result is the object state at the moment the exception
propagates, paired with the exception. -/
def clear (s : CacheState) (views : Bool) : CacheState × Option PyErr :=
  let s1 := { s with users := ([] : List (Nat × DUser)),
                     guilds := ([] : List (Nat × RGuild)),
                     polls := ([] : List (Nat × Nat)),
                     stickers := ([] : List (Nat × List RSticker)) }
  let s2 := if views then { s1 with views := ([] : List (String × RView)) } else s1
  let s3 := { s2 with modals := ([] : List (String × RModal)),
                      messages := ([] : List Msg),
                      emojis := ([] : List (Nat × List REmoji)) }
  (s3, some PyErr.typeError)

/-! ## Operations (`MemoryCache` methods) -/

/-- `get_all_users`. -/
def get_all_users (s : CacheState) : List DUser := s.users.map Prod.snd

/-- `store_user`: return the cached user when the id is present; otherwise
construct one, cache it (setting `_stored`) unless its discriminator is
"0000", and return it. -/
def store_user (s : CacheState) (payload : UserPayload) : DUser × CacheState :=
  match odGet? s.users payload.id with
  | some u => (u, s)
  | none =>
      let user : DUser :=
        { id := payload.id, discriminator := payload.discriminator, stored := false }
      if user.discriminator ≠ "0000" then
        let user2 := { user with stored := true }
        (user2, { s with users := odSet s.users payload.id user2 })
      else
        (user, s)

/-- `delete_user`. -/
def delete_user (s : CacheState) (user_id : Nat) : CacheState :=
  { s with users := odPop s.users user_id }

/-- `get_user`: `self._users.get(user_id)`. -/
def get_user (s : CacheState) (user_id : Nat) : Option DUser :=
  odGet? s.users user_id

/-- `get_all_stickers`: `list(self._stickers.values())` — the values are the
per-guild lists, whatever the annotation promises. -/
def get_all_stickers (s : CacheState) : List (List RSticker) := s.stickers.map Prod.snd

/-- `get_sticker`: `self._stickers.get(sticker_id)` — a lookup by the given
id in the map whose keys are guild ids and whose values are lists. -/
def get_sticker (s : CacheState) (sticker_id : Nat) : Option (List RSticker) :=
  odGet? s.stickers sticker_id

/-- `store_sticker`: materialize the sticker and append it to the guild's
list, creating the list on KeyError. -/
def store_sticker (s : CacheState) (guild : RGuild) (data : StickerPayload) :
    RSticker × CacheState :=
  let sticker : RSticker := { id := data.id }
  match odGet? s.stickers guild.id with
  | some l => (sticker, { s with stickers := odSet s.stickers guild.id (l ++ [sticker]) })
  | none => (sticker, { s with stickers := odSet s.stickers guild.id [sticker] })

/-- `delete_sticker`: `self._stickers.pop(sticker_id, None)` — it pops the
GUILD-keyed map with the sticker id. -/
def delete_sticker (s : CacheState) (sticker_id : Nat) : CacheState :=
  { s with stickers := odPop s.stickers sticker_id }

/-- Python truthiness of `message_id or view.id`: a present, nonzero message
id wins, otherwise the view's own id; the key is its string form. -/
def viewKey (view : RView) (message_id : Option Nat) : String :=
  match message_id with
  | some m => if m ≠ 0 then toString m else toString view.id
  | none => toString view.id

/-- `store_view`: `self._views[str(message_id or view.id)] = view`. -/
def store_view (s : CacheState) (view : RView) (message_id : Option Nat) : CacheState :=
  { s with views := odSet s.views (viewKey view message_id) view }

/-- `get_all_views`. -/
def get_all_views (s : CacheState) : List RView := s.views.map Prod.snd

/-- `delete_view_on`: despite the name it mutates nothing — it scans the
stored views and returns the first whose attached message has the given id
(`if view.message and view.message.id == message_id: return view`). -/
def delete_view_on (s : CacheState) (message_id : Nat) : Option RView × CacheState :=
  ((get_all_views s).find? (fun v => v.message.map Msg.id = some message_id), s)

/-- `store_modal`: keyed by `modal.custom_id`. -/
def store_modal (s : CacheState) (modal : RModal) : CacheState :=
  { s with modals := odSet s.modals modal.custom_id modal }

/-- `get_all_modals`. -/
def get_all_modals (s : CacheState) : List RModal := s.modals.map Prod.snd

/-- `delete_modal`. -/
def delete_modal (s : CacheState) (custom_id : String) : CacheState :=
  { s with modals := odPop s.modals custom_id }

/-- `get_all_guilds`. -/
def get_all_guilds (s : CacheState) : List RGuild := s.guilds.map Prod.snd

/-- `get_guild`. -/
def get_guild (s : CacheState) (id : Nat) : Option RGuild := odGet? s.guilds id

/-- `add_guild`. -/
def add_guild (s : CacheState) (guild : RGuild) : CacheState :=
  { s with guilds := odSet s.guilds guild.id guild }

/-- `delete_guild`. -/
def delete_guild (s : CacheState) (guild : RGuild) : CacheState :=
  { s with guilds := odPop s.guilds guild.id }

/-- `store_guild_emoji`: materialize a GuildEmoji and append it to the
guild's owner list, creating the list on KeyError. -/
def store_guild_emoji (s : CacheState) (guild : RGuild) (data : EmojiPayload) :
    REmoji × CacheState :=
  let emoji := REmoji.guild guild.id data.id
  match odGet? s.emojis guild.id with
  | some l => (emoji, { s with emojis := odSet s.emojis guild.id (l ++ [emoji]) })
  | none => (emoji, { s with emojis := odSet s.emojis guild.id [emoji] })

/-- `store_app_emoji`: materialize an AppEmoji and append it to the
application's owner list, creating the list on KeyError. -/
def store_app_emoji (s : CacheState) (application_id : Nat) (data : EmojiPayload) :
    REmoji × CacheState :=
  let emoji := REmoji.app application_id data.id
  match odGet? s.emojis application_id with
  | some l =>
      (emoji, { s with emojis := odSet s.emojis application_id (l ++ [emoji]) })
  | none => (emoji, { s with emojis := odSet s.emojis application_id [emoji] })

/-- `get_all_emojis`: `list(self._emojis.values())` — the per-owner lists. -/
def get_all_emojis (s : CacheState) : List (List REmoji) := s.emojis.map Prod.snd

/-- `get_emoji`: `self._emojis.get(emoji_id)` — a lookup in the owner-keyed
map. -/
def get_emoji (s : CacheState) (emoji_id : Nat) : Option (List REmoji) :=
  odGet? s.emojis emoji_id

/-- `list.remove(x)`: removes the first element equal to `x`
(`BaseEmoji.__eq__` compares emoji ids only) or raises ValueError. -/
def listRemoveEmoji (l : List REmoji) (e : REmoji) : Except PyErr (List REmoji) :=
  if l.any (fun x => x.eid = e.eid) then
    Except.ok (l.eraseP (fun x => x.eid = e.eid))
  else Except.error PyErr.valueError

/-- `delete_emoji`: dispatch on the variant via the `isinstance(emoji,
AppEmoji)` check (`REmoji.ownerId`), then `self._emojis[owner].remove(emoji)`;
a missing owner key raises KeyError. -/
def delete_emoji (s : CacheState) (emoji : REmoji) : Except PyErr CacheState :=
  match odGet? s.emojis emoji.ownerId with
  | none => Except.error PyErr.keyError
  | some l =>
      (listRemoveEmoji l emoji).map
        (fun l2 => { s with emojis := odSet s.emojis emoji.ownerId l2 })

/-- `get_all_polls`. -/
def get_all_polls (s : CacheState) : List Nat := s.polls.map Prod.snd

/-- `get_poll`. -/
def get_poll (s : CacheState) (message_id : Nat) : Option Nat :=
  odGet? s.polls message_id

/-- `store_poll`: keyed by message id. -/
def store_poll (s : CacheState) (poll : Nat) (message_id : Nat) : CacheState :=
  { s with polls := odSet s.polls message_id poll }

/-- `get_private_channels`. -/
def get_private_channels (s : CacheState) : List PChannel :=
  s.privateChannels.map Prod.snd

/-- `get_private_channel`: a hit promotes the entry to the
most-recently-used end via `move_to_end`; a miss returns None. -/
def get_private_channel (s : CacheState) (channel_id : Nat) :
    Option PChannel × CacheState :=
  match odGet? s.privateChannels channel_id with
  | none => (none, s)
  | some channel =>
      (some channel,
        { s with privateChannels := odMoveToEnd s.privateChannels channel_id })

/-- `get_private_channel_by_user`. -/
def get_private_channel_by_user (s : CacheState) (user_id : Nat) : Option PChannel :=
  odGet? s.privateChannelsByUser user_id

/-- `store_private_channel`: assign `self._private_channels[channel.id] =
channel` (an existing key keeps its position), then if the map now holds more
than 128 entries pop the least-recently-used one with `popitem(last=False)`,
dropping the evicted DM channel's secondary-index entry when it has a truthy
recipient, and finally index a DM channel with a truthy recipient under its
recipient's id.  The `[]` branch of the match is unreachable: a list longer
than 128 entries is nonempty. -/
def store_private_channel (s : CacheState) (channel : PChannel) : CacheState :=
  let m := odSet s.privateChannels channel.id channel
  let em :=
    if 128 < m.length then
      match m with
      | [] => (m, s.privateChannelsByUser)
      | to_remove :: rest =>
          (rest,
            match peer to_remove.2 with
            | some uid => odPop s.privateChannelsByUser uid
            | none => s.privateChannelsByUser)
    else (m, s.privateChannelsByUser)
  let by_user :=
    match peer channel with
    | some uid => odSet em.2 uid channel
    | none => em.2
  { s with privateChannels := em.1, privateChannelsByUser := by_user }

/-- `deque(maxlen=n).append`: drops entries from the left once the maximum
would be exceeded; `maxlen=None` is unbounded. -/
def dequeAppend (maxlen : Option Nat) (buf : List Msg) (m : Msg) : List Msg :=
  match maxlen with
  | none => buf ++ [m]
  | some n => (buf ++ [m]).drop (buf.length + 1 - n)

/-- `upsert_message`: `self._messages.append(message)` on the bounded
deque. -/
def upsert_message (s : CacheState) (message : Msg) : CacheState :=
  { s with messages := dequeAppend s.maxMessages s.messages message }

/-- Modelled from the spec: `discord.utils.find` (the `utils` module is not
under src/) returns the first element of the iterable satisfying the
predicate, or None; `get_message` applies it to `reversed(self._messages)`,
scanning newest to oldest. -/
def get_message (s : CacheState) (message_id : Nat) : Option Msg :=
  s.messages.reverse.find? (fun m => m.id = message_id)

/-- `get_all_messages`. -/
def get_all_messages (s : CacheState) : List Msg := s.messages

/-- The state-touching operations of the Entity Store, for frame theorems. -/
inductive CacheOp where
  | storeUser (payload : UserPayload)
  | deleteUser (user_id : Nat)
  | storeSticker (guild : RGuild) (data : StickerPayload)
  | deleteSticker (sticker_id : Nat)
  | storeView (view : RView) (message_id : Option Nat)
  | deleteViewOn (message_id : Nat)
  | storeModal (modal : RModal)
  | deleteModal (custom_id : String)
  | addGuild (guild : RGuild)
  | deleteGuild (guild : RGuild)
  | storeGuildEmoji (guild : RGuild) (data : EmojiPayload)
  | storeAppEmoji (application_id : Nat) (data : EmojiPayload)
  | deleteEmoji (emoji : REmoji)
  | storePoll (poll : Nat) (message_id : Nat)
  | upsertMessage (message : Msg)
  | storePrivateChannel (channel : PChannel)
  | getPrivateChannel (channel_id : Nat)
  | clearOp (views : Bool)
deriving DecidableEq

/-- The state after running one operation.  For the fallible ones this is the
object state when the exception propagates: `delete_emoji` mutates nothing
when it raises, and `clear` keeps its partial resets. -/
def applyOp (op : CacheOp) (s : CacheState) : CacheState :=
  match op with
  | .storeUser p => (store_user s p).2
  | .deleteUser i => delete_user s i
  | .storeSticker g d => (store_sticker s g d).2
  | .deleteSticker i => delete_sticker s i
  | .storeView v m => store_view s v m
  | .deleteViewOn m => (delete_view_on s m).2
  | .storeModal m => store_modal s m
  | .deleteModal c => delete_modal s c
  | .addGuild g => add_guild s g
  | .deleteGuild g => delete_guild s g
  | .storeGuildEmoji g d => (store_guild_emoji s g d).2
  | .storeAppEmoji a d => (store_app_emoji s a d).2
  | .deleteEmoji e =>
      match delete_emoji s e with
      | .ok s2 => s2
      | .error _ => s
  | .storePoll p m => store_poll s p m
  | .upsertMessage m => upsert_message s m
  | .storePrivateChannel c => store_private_channel s c
  | .getPrivateChannel i => (get_private_channel s i).2
  | .clearOp v => (clear s v).1

/-! ## Claim theorems -/

/-- C4: the claim that every Entity Store operation over well-formed input
completes without raising fails on the code: every call to `clear` — with
either flag, from any state, including the call `__init__` makes — raises
TypeError at the chained assignment on line 189. -/
theorem clear_always_raises (s : CacheState) (views : Bool) :
    (clear s views).2 = some PyErr.typeError := rfl

/-- C3 counterexample: with one view stored and one private channel cached,
`clear` with the flag SET empties the view mapping — the claim says a set
flag preserves it — and leaves the private-channel mapping untouched instead
of resetting it. -/
theorem clear_flag_counterexample :
    (clear (store_view (store_private_channel (initialCache none)
        { id := 1, isDM := true, recipient := some 2 })
        { id := 10, message := none } (some 5)) true).1.views
      ≠ (store_view (store_private_channel (initialCache none)
        { id := 1, isDM := true, recipient := some 2 })
        { id := 10, message := none } (some 5)).views ∧
    (clear (store_view (store_private_channel (initialCache none)
        { id := 1, isDM := true, recipient := some 2 })
        { id := 10, message := none } (some 5)) true).1.privateChannels ≠ [] := by
  decide

/-- C3 (amended): `clear` resets users, guilds, polls, stickers, modals,
messages and emojis; the view mapping is reset exactly when the flag is SET
and preserved when it is unset (the reverse of the claim); the
private-channel map and its secondary index are never reset because the
TypeError of line 189 propagates first; `max_messages` is kept. -/
theorem clear_resets (s : CacheState) (views : Bool) :
    (clear s views).1.users = [] ∧ (clear s views).1.guilds = [] ∧
    (clear s views).1.polls = [] ∧ (clear s views).1.stickers = [] ∧
    (clear s views).1.modals = [] ∧ (clear s views).1.messages = [] ∧
    (clear s views).1.emojis = [] ∧
    (clear s views).1.views = (if views then [] else s.views) ∧
    (clear s views).1.privateChannels = s.privateChannels ∧
    (clear s views).1.privateChannelsByUser = s.privateChannelsByUser ∧
    (clear s views).1.maxMessages = s.maxMessages := by
  unfold clear
  by_cases h : views <;> simp [h]

/-- C1 counterexample: id 1 is cached with discriminator "1234"; a second
`store_user` call whose payload carries the same id and discriminator "0000"
returns the CACHED instance — its discriminator is still "1234", its stored
flag is set, and the mapping still holds it — not a fresh, uncached instance
as the claim requires for such payloads. -/
theorem store_user_cached_hit_counterexample :
    (store_user (store_user (initialCache none)
        { id := 1, discriminator := "1234" }).2
        { id := 1, discriminator := "0000" }).1.discriminator = "1234" ∧
    (store_user (store_user (initialCache none)
        { id := 1, discriminator := "1234" }).2
        { id := 1, discriminator := "0000" }).1.stored = true ∧
    (store_user (store_user (initialCache none)
        { id := 1, discriminator := "1234" }).2
        { id := 1, discriminator := "0000" }).2
      = (store_user (initialCache none) { id := 1, discriminator := "1234" }).2 := by
  decide

/-- C1 (amended): when the payload's id is already cached, `store_user`
returns the cached instance and leaves the state unchanged regardless of the
incoming discriminator; when the id is not cached and the discriminator is
"0000", it returns a fresh unstored user, leaves the mapping without that
id, and a subsequent `get_user` returns absent. -/
theorem store_user_spec (s : CacheState) (p : UserPayload) :
    (∀ u, odGet? s.users p.id = some u → store_user s p = (u, s)) ∧
    (odGet? s.users p.id = none → p.discriminator = "0000" →
      store_user s p
          = ({ id := p.id, discriminator := p.discriminator, stored := false }, s) ∧
        get_user (store_user s p).2 p.id = none) := by
  constructor
  · intro u hu
    unfold store_user
    rw [hu]
  · intro hn hd
    have hstep : store_user s p
        = ({ id := p.id, discriminator := p.discriminator, stored := false }, s) := by
      unfold store_user
      rw [hn]
      simp [hd]
    refine ⟨hstep, ?_⟩
    rw [hstep]
    simpa [get_user] using hn

/-- Witness for C1 at payload id 3 with discriminator "0000" on the empty
store. -/
theorem store_user_spec_witness :
    odGet? (initialCache none).users 3 = none ∧
    ({ id := 3, discriminator := "0000" } : UserPayload).discriminator = "0000" ∧
    (store_user (initialCache none) { id := 3, discriminator := "0000" }
        = ({ id := 3, discriminator := "0000", stored := false }, initialCache none) ∧
      get_user (store_user (initialCache none) { id := 3, discriminator := "0000" }).2 3
        = none) :=
  ⟨by decide, by decide,
    (store_user_spec (initialCache none) { id := 3, discriminator := "0000" }).2
      (by decide) (by decide)⟩

/-- C8: `delete_sticker` pops the guild-keyed map with a sticker id.  With
guild 1 holding exactly one sticker of id 5, `delete_sticker 5` leaves the
state unchanged — the sticker is still cached under guild 1 — while
`delete_sticker 1` (a colliding guild id) removes that guild's whole list;
the claim's linear one-sticker removal never happens. -/
theorem delete_sticker_wrong_key :
    delete_sticker (store_sticker (initialCache none) { id := 1 } { id := 5 }).2 5
      = (store_sticker (initialCache none) { id := 1 } { id := 5 }).2 ∧
    get_sticker
        (delete_sticker (store_sticker (initialCache none) { id := 1 } { id := 5 }).2 5) 1
      = some [{ id := 5 }] ∧
    (delete_sticker (store_sticker (initialCache none) { id := 1 } { id := 5 }).2 1).stickers
      = [] := by
  decide

/-- C9: `delete_emoji` dispatches on the emoji's variant before removing.
With the emoji map initially free of both owners, a guild emoji under owner
`gid` and an application emoji under owner `aid ≠ gid` sharing the numeric id
`x` are stored; deleting the guild emoji succeeds, empties only the guild
owner's list, and leaves the application emoji stored. -/
theorem delete_emoji_variant_dispatch (s : CacheState) (gid aid x : Nat)
    (hne : gid ≠ aid)
    (hg : odGet? s.emojis gid = none) (ha : odGet? s.emojis aid = none) :
    ∃ s3,
      delete_emoji
          (store_app_emoji (store_guild_emoji s { id := gid } { id := x }).2
            aid { id := x }).2
          (REmoji.guild gid x)
        = Except.ok s3 ∧
      get_emoji s3 aid = some [REmoji.app aid x] ∧
      get_emoji s3 gid = some [] := by
  have e1 : (store_guild_emoji s { id := gid } { id := x }).2
      = { s with emojis := odSet s.emojis gid [REmoji.guild gid x] } := by
    simp [store_guild_emoji, hg]
  have ha1 : odGet? (odSet s.emojis gid [REmoji.guild gid x]) aid = none := by
    rw [odGet?_odSet_ne _ _ (Ne.symm hne)]
    exact ha
  have e2 : (store_app_emoji ({ s with emojis := odSet s.emojis gid [REmoji.guild gid x] } : CacheState) aid { id := x }).2 = { s with emojis := odSet (odSet s.emojis gid [REmoji.guild gid x]) aid [REmoji.app aid x] } := by
    simp [store_app_emoji, ha1]
  have hget : odGet? (odSet (odSet s.emojis gid [REmoji.guild gid x]) aid [REmoji.app aid x]) gid = some [REmoji.guild gid x] := by
    rw [odGet?_odSet_ne _ _ hne]
    exact odGet?_odSet_self _ _ _
  have e3 : delete_emoji ({ s with emojis := odSet (odSet s.emojis gid [REmoji.guild gid x]) aid [REmoji.app aid x] } : CacheState) (REmoji.guild gid x) = Except.ok { s with emojis := odSet (odSet (odSet s.emojis gid [REmoji.guild gid x]) aid [REmoji.app aid x]) gid [] } := by
    simp [delete_emoji, REmoji.ownerId, hget, listRemoveEmoji, REmoji.eid,
      List.eraseP, Except.map]
  refine ⟨{ s with emojis := odSet (odSet (odSet s.emojis gid [REmoji.guild gid x]) aid [REmoji.app aid x]) gid [] }, ?_, ?_, ?_⟩
  · rw [e1, e2]
    exact e3
  · show odGet? _ aid = _
    rw [odGet?_odSet_ne _ _ (Ne.symm hne)]
    exact odGet?_odSet_self _ _ _
  · show odGet? _ gid = _
    exact odGet?_odSet_self _ _ _

/-- Witness for C9 on the empty store with guild owner 1, application owner 2
and colliding emoji id 7. -/
theorem delete_emoji_variant_dispatch_witness :
    (1 : Nat) ≠ 2 ∧
    odGet? (initialCache none).emojis 1 = none ∧
    odGet? (initialCache none).emojis 2 = none ∧
    ∃ s3,
      delete_emoji
          (store_app_emoji (store_guild_emoji (initialCache none) { id := 1 } { id := 7 }).2
            2 { id := 7 }).2
          (REmoji.guild 1 7)
        = Except.ok s3 ∧
      get_emoji s3 2 = some [REmoji.app 2 7] ∧
      get_emoji s3 1 = some [] :=
  ⟨by decide, by decide, by decide,
    delete_emoji_variant_dispatch (initialCache none) 1 2 7 (by decide) (by decide)
      (by decide)⟩

/-- C10 counterexample: `store_view` with a colliding key is a store
operation other than `clear` that removes a previously stored view: after
storing view 10 and then view 11 both under message id 5, view 10 is gone
from `get_all_views`. -/
theorem store_view_overwrite_counterexample :
    get_all_views (store_view (store_view (initialCache none)
        { id := 10, message := none } (some 5)) { id := 11, message := none } (some 5))
      = [{ id := 11, message := none }] ∧
    ({ id := 10, message := none } : RView) ∉
      get_all_views (store_view (store_view (initialCache none)
        { id := 10, message := none } (some 5)) { id := 11, message := none } (some 5)) := by
  decide

/-- C10 (amended): `delete_view_on` performs no mutation — its state
component is exactly the input state — and any view it returns is a stored
view (hence still present in the subsequent `get_all_views`) whose attached
message carries the requested id; no operation other than `clear` and a
`store_view` (which can replace the view stored under an existing key) ever
changes the view mapping. -/
theorem delete_view_on_spec :
    (∀ s mid, (delete_view_on s mid).2 = s) ∧
    (∀ s mid v, (delete_view_on s mid).1 = some v →
        v ∈ get_all_views (delete_view_on s mid).2 ∧ v.message.map Msg.id = some mid) ∧
    (∀ op s, (∀ vw m, op ≠ CacheOp.storeView vw m) → (∀ b, op ≠ CacheOp.clearOp b) →
        (applyOp op s).views = s.views) := by
  refine ⟨fun s mid => rfl, ?_, ?_⟩
  · intro s mid v hv
    unfold delete_view_on at hv
    simp only at hv
    constructor
    · exact List.mem_of_find?_eq_some hv
    · have := List.find?_some hv
      simpa using this
  · intro op s hsv hcl
    cases op with
    | storeUser p =>
        show (store_user s p).2.views = s.views
        unfold store_user
        split
        · rfl
        · by_cases hd : p.discriminator = "0000" <;> simp [hd]
    | deleteUser i => rfl
    | storeSticker g d =>
        show (store_sticker s g d).2.views = s.views
        unfold store_sticker
        split <;> rfl
    | deleteSticker i => rfl
    | storeView vw m => exact absurd rfl (hsv vw m)
    | deleteViewOn m => rfl
    | storeModal m => rfl
    | deleteModal c => rfl
    | addGuild g => rfl
    | deleteGuild g => rfl
    | storeGuildEmoji g d =>
        show (store_guild_emoji s g d).2.views = s.views
        unfold store_guild_emoji
        split <;> rfl
    | storeAppEmoji a d =>
        show (store_app_emoji s a d).2.views = s.views
        unfold store_app_emoji
        split <;> rfl
    | deleteEmoji e =>
        show (match delete_emoji s e with
          | .ok s2 => s2
          | .error _ => s).views = s.views
        unfold delete_emoji listRemoveEmoji
        cases hg : odGet? s.emojis e.ownerId with
        | none => rfl
        | some l =>
            by_cases hany : (l.any fun y => y.eid = e.eid) = true
            · simp only [hany, if_true, Except.map]
            · simp only [hany, if_false, Except.map]
              rfl
    | storePoll p m => rfl
    | upsertMessage m => rfl
    | storePrivateChannel c => rfl
    | getPrivateChannel i =>
        show (get_private_channel s i).2.views = s.views
        unfold get_private_channel
        split <;> rfl
    | clearOp b => exact absurd rfl (hcl b)

/-- Witness for C10 on the empty store: the no-mutation part at message id 5
and the frame part at the non-view operation `delete_user 0`. -/
theorem delete_view_on_spec_witness :
    (delete_view_on (initialCache none) 5).2 = initialCache none ∧
    (applyOp (CacheOp.deleteUser 0) (initialCache none)).views
      = (initialCache none).views :=
  ⟨delete_view_on_spec.1 (initialCache none) 5,
    delete_view_on_spec.2.2 (CacheOp.deleteUser 0) (initialCache none)
      (fun _ _ h => CacheOp.noConfusion h) (fun _ h => CacheOp.noConfusion h)⟩

/-- odPop is the identity when the key is absent. -/
theorem odPop_eq_self {κ α : Type} [DecidableEq κ] {m : List (κ × α)} {k : κ}
    (h : k ∉ odKeys m) : odPop m k = m := by
  unfold odPop
  rw [List.filter_eq_self]
  intro p hp
  simpa using fun he : p.1 = k => h (he ▸ List.mem_map_of_mem Prod.fst hp)

/-- odSet on an absent key is a plain append. -/
theorem odSet_of_not_mem {κ α : Type} [DecidableEq κ] {m : List (κ × α)} {k : κ}
    (v : α) (h : k ∉ odKeys m) : odSet m k v = m ++ [(k, v)] := by
  unfold odSet
  rw [if_neg h]

/-- `store_private_channel` when no eviction triggers (the updated map stays
within 128 entries): the channel is assigned and, for a DM channel with a
truthy recipient, indexed under the recipient. -/
theorem store_private_channel_no_evict (s : CacheState) (c : PChannel)
    (hlen : (odSet s.privateChannels c.id c).length ≤ 128) :
    store_private_channel s c
      = { s with
          privateChannels := odSet s.privateChannels c.id c,
          privateChannelsByUser :=
            (match peer c with
              | some uid => odSet s.privateChannelsByUser uid c
              | none => s.privateChannelsByUser) } := by
  simp only [store_private_channel]
  rw [if_neg (by omega)]

/-- `store_private_channel` when the insertion pushes the map over 128
entries: the head (least-recently-used) entry `q` is evicted and, when it is
a DM channel with a truthy recipient, that recipient's secondary entry is
popped, before the stored channel is indexed. -/
theorem store_private_channel_evict (s : CacheState) (c : PChannel)
    (q : Nat × PChannel) (qrest : List (Nat × PChannel))
    (hm : odSet s.privateChannels c.id c = q :: qrest)
    (hlen : 128 < (odSet s.privateChannels c.id c).length) :
    store_private_channel s c
      = { s with
          privateChannels := qrest,
          privateChannelsByUser :=
            (match peer c with
              | some uid => odSet (match peer q.2 with
                  | some u2 => odPop s.privateChannelsByUser u2
                  | none => s.privateChannelsByUser) uid c
              | none => (match peer q.2 with
                  | some u2 => odPop s.privateChannelsByUser u2
                  | none => s.privateChannelsByUser)) } := by
  simp only [store_private_channel, hm]
  rw [if_pos (hm ▸ hlen)]

/-- `get_private_channel` on a present id returns the channel and promotes
its entry: the resulting key order is the old keys without it, then the id
at the most-recently-used end. -/
theorem get_private_channel_promotes (s : CacheState) (cid : Nat) (ch : PChannel)
    (h : odGet? s.privateChannels cid = some ch) :
    (get_private_channel s cid).1 = some ch ∧
    (get_private_channel s cid).2
      = { s with privateChannels := odMoveToEnd s.privateChannels cid } ∧
    odKeys (get_private_channel s cid).2.privateChannels
      = (odKeys s.privateChannels).filter (fun x => x ≠ cid) ++ [cid] := by
  unfold get_private_channel
  rw [h]
  refine ⟨rfl, rfl, ?_⟩
  show odKeys (odMoveToEnd s.privateChannels cid) = _
  unfold odMoveToEnd
  unfold odGet? at h
  cases hf : s.privateChannels.find? (fun p => p.1 = cid) with
  | none => rw [hf] at h; exact Option.noConfusion h
  | some p =>
      have hp1 : p.1 = cid := by simpa using List.find?_some hf
      rw [odKeys_append, odKeys_odPop]
      simp [odKeys, hp1]

/-- C5 counterexample: with channels 1 and 2 cached in that order (1 least
recently used), re-storing channel id 1 leaves the key order [1, 2] — the
most-recently-used end still holds 2, not the just-stored 1 — because
OrderedDict assignment does not move an existing key. -/
theorem store_private_channel_no_refresh_counterexample :
    odKeys (store_private_channel
        (store_private_channel (store_private_channel (initialCache none)
          { id := 1, isDM := false, recipient := none })
          { id := 2, isDM := false, recipient := none })
        { id := 1, isDM := false, recipient := none }).privateChannels
      = [1, 2] ∧
    (odKeys (store_private_channel
        (store_private_channel (store_private_channel (initialCache none)
          { id := 1, isDM := false, recipient := none })
          { id := 2, isDM := false, recipient := none })
        { id := 1, isDM := false, recipient := none }).privateChannels).getLast?
      ≠ some 1 := by
  decide

/-- C5 (amended): a `store_private_channel` of a NEW id places it at the
most-recently-used end (also when it triggers an eviction), but a store of an
already-present id leaves the key order unchanged (OrderedDict assignment
does not refresh position); `get_private_channel` on a present id returns it
and promotes it to the most-recently-used end, so an entry touched by a get
survives an eviction round that would otherwise have removed it. -/
theorem private_channel_touch_spec :
    (∀ (s : CacheState) (c : PChannel), c.id ∉ odKeys s.privateChannels →
      s.privateChannels.length ≤ 128 →
      (odKeys (store_private_channel s c).privateChannels).getLast? = some c.id) ∧
    (∀ (s : CacheState) (c : PChannel), c.id ∈ odKeys s.privateChannels →
      s.privateChannels.length ≤ 128 →
      odKeys (store_private_channel s c).privateChannels = odKeys s.privateChannels) ∧
    (∀ (s : CacheState) (cid : Nat) (ch : PChannel),
      odGet? s.privateChannels cid = some ch →
      (get_private_channel s cid).1 = some ch ∧
      odKeys (get_private_channel s cid).2.privateChannels
        = (odKeys s.privateChannels).filter (fun x => x ≠ cid) ++ [cid]) ∧
    (∀ (s : CacheState) (c : PChannel) (q : Nat × PChannel) (t : List (Nat × PChannel)),
      s.privateChannels = q :: t → s.privateChannels.length = 128 →
      (odKeys s.privateChannels).Nodup → c.id ∉ odKeys s.privateChannels →
      q.1 ∉ odKeys (store_private_channel s c).privateChannels ∧
      q.1 ∈ odKeys (store_private_channel (get_private_channel s q.1).2 c).privateChannels) := by
  refine ⟨?_, ?_, ?_, ?_⟩
  · intro s c hnew hlen
    have hset : odSet s.privateChannels c.id c = s.privateChannels ++ [(c.id, c)] :=
      odSet_of_not_mem c hnew
    by_cases h128 : s.privateChannels.length = 128
    · cases hs : s.privateChannels with
      | nil => rw [hs] at h128; simp at h128
      | cons q t =>
          have hset2 : odSet s.privateChannels c.id c = q :: (t ++ [(c.id, c)]) := by
            rw [hset, hs]
            simp
          have hlen2 : 128 < (odSet s.privateChannels c.id c).length := by
            rw [hset]
            simp [h128]
          rw [store_private_channel_evict s c q (t ++ [(c.id, c)]) hset2 hlen2]
          show (odKeys (t ++ [(c.id, c)])).getLast? = some c.id
          rw [odKeys_append]
          exact List.getLast?_concat _
    · have hsmall : (odSet s.privateChannels c.id c).length ≤ 128 := by
        rw [hset]
        simp only [List.length_append, List.length_singleton]
        omega
      rw [store_private_channel_no_evict s c hsmall]
      show (odKeys (odSet s.privateChannels c.id c)).getLast? = some c.id
      rw [hset, odKeys_append]
      exact List.getLast?_concat _
  · intro s c hmem hlen
    have hsmall : (odSet s.privateChannels c.id c).length ≤ 128 := by
      rw [length_odSet, if_pos hmem]
      exact hlen
    rw [store_private_channel_no_evict s c hsmall]
    show odKeys (odSet s.privateChannels c.id c) = _
    rw [odKeys_odSet, if_pos hmem]
  · intro s cid ch h
    obtain ⟨h1, _, h3⟩ := get_private_channel_promotes s cid ch h
    exact ⟨h1, h3⟩
  · intro s c q t hs h128 hnd hc
    have hqt : q.1 ∉ odKeys t ∧ (odKeys t).Nodup := by
      rw [hs, odKeys_cons, List.nodup_cons] at hnd
      exact hnd
    have hcq : c.id ≠ q.1 := by
      intro he
      apply hc
      rw [hs, odKeys_cons]
      exact he ▸ List.mem_cons_self _ _
    have hct : c.id ∉ odKeys t := by
      intro he
      apply hc
      rw [hs, odKeys_cons]
      exact List.mem_cons_of_mem _ he
    constructor
    · have hset : odSet s.privateChannels c.id c = q :: (t ++ [(c.id, c)]) := by
        rw [odSet_of_not_mem c hc, hs]
        simp
      have hlen2 : 128 < (odSet s.privateChannels c.id c).length := by
        rw [odSet_of_not_mem c hc]
        simp only [List.length_append, List.length_singleton]
        omega
      rw [store_private_channel_evict s c q (t ++ [(c.id, c)]) hset hlen2]
      show q.1 ∉ odKeys (t ++ [(c.id, c)])
      rw [odKeys_append]
      intro hmem
      rcases List.mem_append.mp hmem with h1 | h1
      · exact hqt.1 h1
      · have h5 : q.1 = c.id := by simpa [odKeys] using h1
        exact hcq h5.symm
    · have hget : odGet? s.privateChannels q.1 = some q.2 := by
        rw [hs]
        exact odGet?_cons_self rfl
      obtain ⟨_, h2, _⟩ := get_private_channel_promotes s q.1 q.2 hget
      have hmove : odMoveToEnd s.privateChannels q.1 = t ++ [q] := by
        unfold odMoveToEnd
        rw [hs, List.find?_cons_of_pos _ (by simp)]
        have hpop : odPop (q :: t) q.1 = t := by
          unfold odPop
          rw [List.filter_cons, if_neg (by simp)]
          exact odPop_eq_self hqt.1
        rw [hpop]
      have hs2 : (get_private_channel s q.1).2 = { s with privateChannels := t ++ [q] } := by
        rw [h2, hmove]
      rw [hs2]
      have hck : c.id ∉ odKeys (t ++ [q]) := by
        rw [odKeys_append]
        intro hmem
        rcases List.mem_append.mp hmem with h4 | h4
        · exact hct h4
        · exact hcq (by simpa [odKeys] using h4)
      cases t with
      | nil =>
          rw [hs] at h128
          simp at h128
      | cons r t2 =>
          have hset2 : odSet ((r :: t2) ++ [q]) c.id c
              = r :: (t2 ++ [q] ++ [(c.id, c)]) := by
            rw [odSet_of_not_mem c hck]
            simp
          have hlen3 : 128 < (odSet ((r :: t2) ++ [q]) c.id c).length := by
            rw [odSet_of_not_mem c hck]
            rw [hs] at h128
            simp only [List.length_append, List.length_singleton, List.length_cons] at h128 ⊢
            omega
          rw [store_private_channel_evict _ c r (t2 ++ [q] ++ [(c.id, c)]) hset2 hlen3]
          show q.1 ∈ odKeys (t2 ++ [q] ++ [(c.id, c)])
          simp [odKeys_append, odKeys]

/-- A full private-channel map of 128 distinct non-DM channels with ids
0..127, id 0 least recently used, for exercising eviction. -/
def privFull : CacheState :=
  { initialCache none with
    privateChannels :=
      (0, { id := 0, isDM := false, recipient := none }) ::
        (List.range 127).map
          (fun i => (i + 1, { id := i + 1, isDM := false, recipient := none })) }

set_option maxRecDepth 100000 in
/-- Witness for C5 on the full 128-entry map: storing a fresh channel evicts
the untouched LRU id 0, but after a `get_private_channel 0` the same store
evicts id 1 instead and id 0 survives. -/
theorem private_channel_touch_spec_witness :
    privFull.privateChannels.length = 128 ∧
    (0 : Nat) ∉ odKeys (store_private_channel privFull
      { id := 200, isDM := false, recipient := none }).privateChannels ∧
    (0 : Nat) ∈ odKeys (store_private_channel (get_private_channel privFull 0).2
      { id := 200, isDM := false, recipient := none }).privateChannels := by
  have h := private_channel_touch_spec.2.2.2 privFull
    { id := 200, isDM := false, recipient := none }
    (0, { id := 0, isDM := false, recipient := none })
    ((List.range 127).map
      (fun i => (i + 1, { id := i + 1, isDM := false, recipient := none })))
    rfl (by decide) (by decide) (by decide)
  exact ⟨by decide, h.1, h.2⟩

/-- `foldl upsert_message` never changes `max_messages`. -/
theorem foldl_upsert_maxMessages (msgs : List Msg) (s : CacheState) :
    (msgs.foldl upsert_message s).maxMessages = s.maxMessages := by
  induction msgs generalizing s with
  | nil => rfl
  | cons m rest ih => exact (ih (upsert_message s m)).trans rfl

/-- The buffer after folding a batch of appends over a bounded deque: the
result is the concatenation with everything beyond the last N entries
dropped from the front. -/
theorem foldl_upsert_messages (N : Nat) (msgs : List Msg) (s : CacheState)
    (hmax : s.maxMessages = some N) (hlen : s.messages.length ≤ N) :
    (msgs.foldl upsert_message s).messages
      = (s.messages ++ msgs).drop (s.messages.length + msgs.length - N) := by
  induction msgs generalizing s with
  | nil =>
      simp only [List.foldl_nil, List.append_nil, List.length_nil, Nat.add_zero]
      rw [Nat.sub_eq_zero_of_le hlen, List.drop_zero]
  | cons m rest ih =>
      have hup : (upsert_message s m).messages
          = (s.messages ++ [m]).drop (s.messages.length + 1 - N) := by
        simp [upsert_message, dequeAppend, hmax]
      have hmax2 : (upsert_message s m).maxMessages = some N := hmax
      have hlen2 : (upsert_message s m).messages.length ≤ N := by
        rw [hup]
        simp only [List.length_drop, List.length_append, List.length_singleton]
        omega
      rw [List.foldl_cons, ih (upsert_message s m) hmax2 hlen2, hup]
      have hd : s.messages.length + 1 - N ≤ (s.messages ++ [m]).length := by
        simp only [List.length_append, List.length_singleton]
        omega
      rw [← List.drop_append_of_le_length hd, List.drop_drop]
      have harr : ((s.messages ++ [m]) ++ rest) = s.messages ++ m :: rest := by
        simp
      rw [harr]
      congr 1
      simp only [List.length_drop, List.length_append, List.length_singleton,
        List.length_cons, List.length_nil]
      omega

/-- C6: for a message buffer with maximum size N, after any N+k insertions
(k>0) exactly the N most recently inserted messages remain, in insertion
order; `get_message` returns absent for any id present only in evicted
entries; and when retained messages share an id, `get_message` returns the
most recently appended one (newest-first search). -/
theorem message_ring_buffer_spec (N k : Nat) (msgs : List Msg) (hk : 0 < k)
    (hlen : msgs.length = N + k) :
    (msgs.foldl upsert_message (initialCache (some N))).messages = msgs.drop k ∧
    ((msgs.foldl upsert_message (initialCache (some N))).messages).length = N ∧
    (∀ mid, mid ∈ (msgs.take k).map Msg.id → mid ∉ (msgs.drop k).map Msg.id →
      get_message (msgs.foldl upsert_message (initialCache (some N))) mid = none) ∧
    (∀ l1 (m : Msg) l2,
      (msgs.foldl upsert_message (initialCache (some N))).messages = l1 ++ m :: l2 →
      (∀ x, x ∈ l2 → x.id ≠ m.id) →
      get_message (msgs.foldl upsert_message (initialCache (some N))) m.id = some m) := by
  have hbuf : (msgs.foldl upsert_message (initialCache (some N))).messages
      = msgs.drop k := by
    rw [foldl_upsert_messages N msgs (initialCache (some N)) rfl
      (by simp [initialCache])]
    rw [show (initialCache (some N)).messages = [] from rfl]
    simp only [List.nil_append, List.length_nil, Nat.zero_add]
    rw [hlen]
    congr 1
    omega
  refine ⟨hbuf, ?_, ?_, ?_⟩
  · rw [hbuf, List.length_drop, hlen]
    omega
  · intro mid _ hnot
    unfold get_message
    rw [hbuf, List.find?_eq_none]
    intro x hx
    simp only [decide_eq_true_eq]
    intro he
    exact hnot (he ▸ List.mem_map_of_mem Msg.id (List.mem_reverse.mp hx))
  · intro l1 m l2 hsplit hl2
    unfold get_message
    rw [hsplit, List.reverse_append, List.reverse_cons, List.find?_append]
    have hA : (l2.reverse ++ [m]).find? (fun x => x.id = m.id) = some m := by
      rw [List.find?_append]
      have hnone : l2.reverse.find? (fun x => x.id = m.id) = none := by
        rw [List.find?_eq_none]
        intro x hx
        simpa using hl2 x (List.mem_reverse.mp hx)
      rw [hnone, Option.none_or]
      exact List.find?_cons_of_pos _ (by simp)
    rw [hA]
    rfl

/-- Witness for C6 with N = 2, k = 1 on messages with ids 1, 2, 3: message 1
is evicted and unreachable, messages 2 and 3 remain. -/
theorem message_ring_buffer_spec_witness :
    (0 : Nat) < 1 ∧
    ([({ id := 1, tag := 0 } : Msg), { id := 2, tag := 0 }, { id := 3, tag := 0 }]).length
      = 2 + 1 ∧
    (([({ id := 1, tag := 0 } : Msg), { id := 2, tag := 0 }, { id := 3, tag := 0 }]).foldl
        upsert_message (initialCache (some 2))).messages
      = ([({ id := 1, tag := 0 } : Msg), { id := 2, tag := 0 }, { id := 3, tag := 0 }]).drop 1 ∧
    get_message (([({ id := 1, tag := 0 } : Msg), { id := 2, tag := 0 },
        { id := 3, tag := 0 }]).foldl upsert_message (initialCache (some 2))) 1 = none :=
  have h := message_ring_buffer_spec 2 1
    [{ id := 1, tag := 0 }, { id := 2, tag := 0 }, { id := 3, tag := 0 }]
    (by decide) (by decide)
  ⟨by decide, by decide, h.1, h.2.2.1 1 (by decide) (by decide)⟩

/-- Membership in an updated dictionary: an entry of `odSet m k v` is the new
pair or an untouched old entry with a different key. -/
theorem mem_odSet {κ α : Type} [DecidableEq κ] {m : List (κ × α)} {k : κ} {v : α}
    {p : κ × α} (h : p ∈ odSet m k v) : p = (k, v) ∨ (p ∈ m ∧ p.1 ≠ k) := by
  unfold odSet at h
  by_cases hk : k ∈ odKeys m
  · rw [if_pos hk] at h
    rcases List.mem_map.mp h with ⟨q, hq, hfq⟩
    by_cases hq1 : q.1 = k
    · rw [if_pos hq1] at hfq
      exact Or.inl hfq.symm
    · rw [if_neg hq1] at hfq
      exact Or.inr ⟨hfq ▸ hq, hfq ▸ hq1⟩
  · rw [if_neg hk] at h
    rcases List.mem_append.mp h with h1 | h1
    · refine Or.inr ⟨h1, ?_⟩
      intro he
      exact hk (he ▸ List.mem_map_of_mem Prod.fst h1)
    · exact Or.inl (List.mem_singleton.mp h1)

/-- Membership after a pop: the entry was present and has a different key. -/
theorem mem_odPop {κ α : Type} [DecidableEq κ] {m : List (κ × α)} {k : κ}
    {p : κ × α} (h : p ∈ odPop m k) : p ∈ m ∧ p.1 ≠ k := by
  unfold odPop at h
  refine ⟨List.mem_of_mem_filter h, ?_⟩
  have := List.of_mem_filter h
  simpa using this

/-- The distinct elements of a list in order of first appearance. -/
def firstOccs : List Nat → List Nat
  | [] => []
  | x :: xs => x :: (firstOccs xs).filter (fun y => y ≠ x)

/-- Following the spec's words, for comparison with the code: "the 128
most-recently-used ids" of a sequence of stored channel ids — the distinct
ids ordered by most recent store first, truncated to the capacity. -/
def mruIdsSpec (stores : List Nat) (n : Nat) : List Nat :=
  (firstOccs stores.reverse).take n

/-- The C2 counterexample schedule: store channel ids 1..129 (id 1 gets
evicted), re-store id 2, then store id 130. -/
def mruCounterOps : List PChannel :=
  ((List.range 129).map
      (fun i => { id := i + 1, isDM := false, recipient := none })) ++
    [{ id := 2, isDM := false, recipient := none },
     { id := 130, isDM := false, recipient := none }]

set_option maxRecDepth 1000000 in
/-- C2 counterexample: after the schedule above — 131 stores covering 130
distinct ids — id 2 is among the 128 most-recently-used ids (it was stored
again right before the final insertion) yet it is evicted, because
re-storing an existing id does not refresh its position, so the map does not
hold the 128 most-recently-used ids. -/
theorem private_channel_mru_counterexample :
    2 ∈ mruIdsSpec (mruCounterOps.map PChannel.id) 128 ∧
    2 ∉ odKeys ((mruCounterOps.foldl store_private_channel
      (initialCache none)).privateChannels) ∧
    3 ∉ mruIdsSpec (mruCounterOps.map PChannel.id) 128 ∧
    3 ∈ odKeys ((mruCounterOps.foldl store_private_channel
      (initialCache none)).privateChannels) := by
  decide

/-- Retention for stores of pairwise-distinct channel ids: starting from a
map whose keys are the last (at most) 128 entries of `pref`, after the batch
the keys are the last (at most) 128 entries of `pref ++ ids`. -/
theorem stores_keys_distinct (cs : List PChannel) :
    ∀ (s : CacheState) (pref : List Nat),
    odKeys s.privateChannels = pref.drop (pref.length - 128) →
    (pref ++ cs.map PChannel.id).Nodup →
    odKeys ((cs.foldl store_private_channel s).privateChannels)
      = (pref ++ cs.map PChannel.id).drop
          ((pref ++ cs.map PChannel.id).length - 128) := by
  induction cs with
  | nil =>
      intro s pref hkeys hnd
      simpa using hkeys
  | cons c rest ih =>
      intro s pref hkeys hnd
      have hlp : s.privateChannels.length
          = pref.length - (pref.length - 128) := by
        have h1 := congrArg List.length hkeys
        simpa [odKeys, List.length_drop] using h1
      have hfresh : c.id ∉ odKeys s.privateChannels := by
        rw [hkeys]
        intro hmem
        rcases List.nodup_append.mp hnd with ⟨_, _, hdisj⟩
        exact hdisj (List.mem_of_mem_drop hmem) (by simp)
      have hnd2 : ((pref ++ [c.id]) ++ rest.map PChannel.id).Nodup := by
        have he : pref ++ (c :: rest).map PChannel.id
            = (pref ++ [c.id]) ++ rest.map PChannel.id := by
          simp
        rw [← he]
        exact hnd
      have hgoal : pref ++ (c :: rest).map PChannel.id
          = (pref ++ [c.id]) ++ rest.map PChannel.id := by
        simp
      rw [List.foldl_cons, hgoal]
      by_cases hbig : 128 ≤ pref.length
      · have hlen128 : s.privateChannels.length = 128 := by omega
        cases hsp : s.privateChannels with
        | nil => rw [hsp] at hlen128; simp at hlen128
        | cons q t =>
            have hset : odSet s.privateChannels c.id c = q :: (t ++ [(c.id, c)]) := by
              rw [odSet_of_not_mem c hfresh, hsp]
              simp
            have hlen2 : 128 < (odSet s.privateChannels c.id c).length := by
              rw [odSet_of_not_mem c hfresh]
              simp only [List.length_append, List.length_singleton]
              omega
            rw [store_private_channel_evict s c q (t ++ [(c.id, c)]) hset hlen2]
            have happ : odKeys (t ++ [(c.id, c)])
                = (pref ++ [c.id]).drop ((pref ++ [c.id]).length - 128) := by
              have htail : odKeys t = (odKeys s.privateChannels).tail := by
                rw [hsp, odKeys_cons]
                rfl
              have hle : (pref ++ [c.id]).length - 128 ≤ pref.length := by
                simp only [List.length_append, List.length_singleton]
                omega
              rw [odKeys_append, htail, hkeys, List.tail_drop,
                List.drop_append_of_le_length hle]
              have hidx : pref.length - 128 + 1
                  = (pref ++ [c.id]).length - 128 := by
                simp only [List.length_append, List.length_singleton]
                omega
              rw [hidx]
              rfl
            exact ih _ (pref ++ [c.id]) happ hnd2
      · have hpref : odKeys s.privateChannels = pref := by
          rw [hkeys, Nat.sub_eq_zero_of_le (by omega), List.drop_zero]
        have hsmall : (odSet s.privateChannels c.id c).length ≤ 128 := by
          rw [odSet_of_not_mem c hfresh]
          simp only [List.length_append, List.length_singleton]
          omega
        rw [store_private_channel_no_evict s c hsmall]
        have happ : odKeys (odSet s.privateChannels c.id c)
            = (pref ++ [c.id]).drop ((pref ++ [c.id]).length - 128) := by
          rw [odSet_of_not_mem c hfresh, odKeys_append, hpref]
          rw [Nat.sub_eq_zero_of_le (by simp; omega), List.drop_zero]
          rfl
        exact ih _ (pref ++ [c.id]) happ hnd2

/-- Invariant carried through sequences of private-channel stores with fresh
ids: keys come from the processed ids and are unique, the map is within
capacity, and every secondary-index entry maps a peer user id to a DM
channel that the primary map still holds under its id. -/
def PrivInv (ids : List Nat) (s : CacheState) : Prop :=
  (∀ x ∈ odKeys s.privateChannels, x ∈ ids) ∧
  (odKeys s.privateChannels).Nodup ∧
  s.privateChannels.length ≤ 128 ∧
  (∀ p ∈ s.privateChannelsByUser,
    peer p.2 = some p.1 ∧ odGet? s.privateChannels p.2.id = some p.2)

/-- Eviction core: an old secondary entry whose key is not the evicted
head's recipient still references a channel present in the remaining
primary map (the evicted head's id cannot be its channel's id). -/
theorem privInv_evict_old (s : CacheState) (q : Nat × PChannel)
    (t : List (Nat × PChannel)) (c : PChannel)
    (hsp : s.privateChannels = q :: t)
    (hby : ∀ p ∈ s.privateChannelsByUser,
      peer p.2 = some p.1 ∧ odGet? s.privateChannels p.2.id = some p.2)
    (r : Nat × PChannel) (hr : r ∈ s.privateChannelsByUser)
    (hnq : peer q.2 ≠ some r.1) :
    peer r.2 = some r.1 ∧ odGet? (t ++ [(c.id, c)]) r.2.id = some r.2 := by
  obtain ⟨hpeer, hget⟩ := hby r hr
  rw [hsp] at hget
  by_cases hrq : q.1 = r.2.id
  · exfalso
    rw [odGet?_cons_self hrq] at hget
    have hq2 : q.2 = r.2 := Option.some.inj hget
    exact hnq (by rw [hq2, hpeer])
  · rw [odGet?_cons_ne hrq] at hget
    exact ⟨hpeer, odGet?_append_left hget⟩

/-- One store of a channel with an unseen id preserves the invariant. -/
theorem privInv_store (s : CacheState) (c : PChannel) (ids : List Nat)
    (hinv : PrivInv ids s) (hc : c.id ∉ ids) :
    PrivInv (ids ++ [c.id]) (store_private_channel s c) := by
  obtain ⟨hsub, hnd, hlen, hby⟩ := hinv
  have hfresh : c.id ∉ odKeys s.privateChannels := fun hmem => hc (hsub _ hmem)
  have hset : odSet s.privateChannels c.id c
      = s.privateChannels ++ [(c.id, c)] := odSet_of_not_mem c hfresh
  by_cases hfull : s.privateChannels.length = 128
  · cases hsp : s.privateChannels with
    | nil => rw [hsp] at hfull; simp at hfull
    | cons q t =>
        have hset2 : odSet s.privateChannels c.id c = q :: (t ++ [(c.id, c)]) := by
          rw [hset, hsp]
          simp
        have hlen2 : 128 < (odSet s.privateChannels c.id c).length := by
          rw [hset]
          simp only [List.length_append, List.length_singleton]
          omega
        rw [store_private_channel_evict s c q (t ++ [(c.id, c)]) hset2 hlen2]
        have hkt : odKeys s.privateChannels = q.1 :: odKeys t := by
          rw [hsp, odKeys_cons]
        have hndt : q.1 ∉ odKeys t ∧ (odKeys t).Nodup := by
          rw [hkt, List.nodup_cons] at hnd
          exact hnd
        have hct : c.id ∉ odKeys t := by
          intro hmem
          exact hfresh (by rw [hkt]; exact List.mem_cons_of_mem _ hmem)
        have hnewget : odGet? (t ++ [(c.id, c)]) c.id = some c :=
          (odGet?_append_right hct).trans (odGet?_singleton c.id c)
        refine ⟨?_, ?_, ?_, ?_⟩
        · show ∀ x ∈ odKeys (t ++ [(c.id, c)]), x ∈ ids ++ [c.id]
          intro x hx
          rw [odKeys_append] at hx
          rcases List.mem_append.mp hx with h1 | h1
          · exact List.mem_append_left _
              (hsub x (by rw [hkt]; exact List.mem_cons_of_mem _ h1))
          · have hxc : x = c.id := by simpa [odKeys] using h1
            exact hxc ▸ List.mem_append_right _ (by simp)
        · show (odKeys (t ++ [(c.id, c)])).Nodup
          rw [odKeys_append]
          refine List.Nodup.append hndt.2 (by simp [odKeys]) ?_
          intro x hx hx2
          have hxc : x = c.id := by simpa [odKeys] using hx2
          exact hct (hxc ▸ hx)
        · show (t ++ [(c.id, c)]).length ≤ 128
          rw [hsp] at hfull
          simp only [List.length_cons] at hfull
          simp only [List.length_append, List.length_singleton]
          omega
        · show ∀ p ∈ (match peer c with
              | some uid => odSet (match peer q.2 with
                  | some u2 => odPop s.privateChannelsByUser u2
                  | none => s.privateChannelsByUser) uid c
              | none => (match peer q.2 with
                  | some u2 => odPop s.privateChannelsByUser u2
                  | none => s.privateChannelsByUser)),
            peer p.2 = some p.1 ∧ odGet? (t ++ [(c.id, c)]) p.2.id = some p.2
          intro p hp
          cases hpc : peer c with
          | some u =>
              rw [hpc] at hp
              rcases mem_odSet hp with hnew | ⟨hp2, hpne⟩
              · subst hnew
                exact ⟨hpc, hnewget⟩
              · cases hpq : peer q.2 with
                | some u2 =>
                    rw [hpq] at hp2
                    obtain ⟨hp3, hpne2⟩ := mem_odPop hp2
                    refine privInv_evict_old s q t c hsp hby p hp3 ?_
                    rw [hpq]
                    intro he
                    exact hpne2.symm (Option.some.inj he)
                | none =>
                    rw [hpq] at hp2
                    refine privInv_evict_old s q t c hsp hby p hp2 ?_
                    rw [hpq]
                    exact fun he => Option.noConfusion he
          | none =>
              rw [hpc] at hp
              cases hpq : peer q.2 with
              | some u2 =>
                  rw [hpq] at hp
                  obtain ⟨hp3, hpne2⟩ := mem_odPop hp
                  refine privInv_evict_old s q t c hsp hby p hp3 ?_
                  rw [hpq]
                  intro he
                  exact hpne2.symm (Option.some.inj he)
              | none =>
                  rw [hpq] at hp
                  refine privInv_evict_old s q t c hsp hby p hp ?_
                  rw [hpq]
                  exact fun he => Option.noConfusion he
  · have hsmall : (odSet s.privateChannels c.id c).length ≤ 128 := by
      rw [hset]
      simp only [List.length_append, List.length_singleton]
      omega
    rw [store_private_channel_no_evict s c hsmall]
    have hnewget : odGet? (s.privateChannels ++ [(c.id, c)]) c.id = some c :=
      (odGet?_append_right hfresh).trans (odGet?_singleton c.id c)
    refine ⟨?_, ?_, ?_, ?_⟩
    · show ∀ x ∈ odKeys (odSet s.privateChannels c.id c), x ∈ ids ++ [c.id]
      intro x hx
      rw [hset, odKeys_append] at hx
      rcases List.mem_append.mp hx with h1 | h1
      · exact List.mem_append_left _ (hsub x h1)
      · have hxc : x = c.id := by simpa [odKeys] using h1
        exact hxc ▸ List.mem_append_right _ (by simp)
    · exact nodup_odKeys_odSet _ _ _ hnd
    · show (odSet s.privateChannels c.id c).length ≤ 128
      exact hsmall
    · show ∀ p ∈ (match peer c with
          | some uid => odSet s.privateChannelsByUser uid c
          | none => s.privateChannelsByUser),
        peer p.2 = some p.1 ∧ odGet? (odSet s.privateChannels c.id c) p.2.id = some p.2
      intro p hp
      cases hpc : peer c with
      | some u =>
          rw [hpc] at hp
          rcases mem_odSet hp with hnew | ⟨hp2, _⟩
          · subst hnew
            rw [hset]
            exact ⟨hpc, hnewget⟩
          · obtain ⟨hpeer, hget⟩ := hby p hp2
            rw [hset]
            exact ⟨hpeer, odGet?_append_left hget⟩
      | none =>
          rw [hpc] at hp
          obtain ⟨hpeer, hget⟩ := hby p hp
          rw [hset]
          exact ⟨hpeer, odGet?_append_left hget⟩

/-- The invariant holds after any batch of stores with fresh, distinct ids. -/
theorem privInv_foldl (cs : List PChannel) :
    ∀ (s : CacheState) (ids : List Nat), PrivInv ids s →
    (ids ++ cs.map PChannel.id).Nodup →
    PrivInv (ids ++ cs.map PChannel.id) (cs.foldl store_private_channel s) := by
  induction cs with
  | nil =>
      intro s ids h _
      simpa using h
  | cons c rest ih =>
      intro s ids h hnd
      have hc : c.id ∉ ids := by
        rcases List.nodup_append.mp hnd with ⟨_, _, hdisj⟩
        intro hmem
        exact hdisj hmem (by simp)
      have he : ids ++ (c :: rest).map PChannel.id
          = (ids ++ [c.id]) ++ rest.map PChannel.id := by
        simp
      have hnd2 : ((ids ++ [c.id]) ++ rest.map PChannel.id).Nodup := by
        rw [← he]
        exact hnd
      have hres := ih (store_private_channel s c) (ids ++ [c.id])
        (privInv_store s c ids h hc) hnd2
      rw [List.foldl_cons, he]
      exact hres

/-- C2 (amended): for every sequence of `store_private_channel` calls over
channels with pairwise-distinct ids, the primary map afterwards holds
exactly the last min(n,128) stored ids in order — the 128 most recently
stored ones when more than 128 distinct ids are stored — and in every state
so reached the by-peer-user secondary index contains no entry whose channel
id is absent from the primary map.  (For sequences with repeated ids the
original claim fails: a re-store does not refresh recency, see the
counterexample.) -/
theorem private_channel_capacity_spec (cs : List PChannel)
    (hnd : (cs.map PChannel.id).Nodup) :
    odKeys ((cs.foldl store_private_channel (initialCache none)).privateChannels)
      = (cs.map PChannel.id).drop (cs.length - 128) ∧
    (cs.foldl store_private_channel (initialCache none)).privateChannels.length
      = min cs.length 128 ∧
    (∀ p ∈ (cs.foldl store_private_channel (initialCache none)).privateChannelsByUser,
      p.2.id ∈ odKeys
        ((cs.foldl store_private_channel (initialCache none)).privateChannels)) := by
  have hkeys := stores_keys_distinct cs (initialCache none) [] rfl (by simpa using hnd)
  simp only [List.nil_append] at hkeys
  have hlenmap : (cs.map PChannel.id).length = cs.length := List.length_map _ _
  refine ⟨?_, ?_, ?_⟩
  · rw [hkeys, hlenmap]
  · have h1 := congrArg List.length hkeys
    rw [List.length_drop, hlenmap] at h1
    have h2 : (odKeys ((cs.foldl store_private_channel
        (initialCache none)).privateChannels)).length
        = ((cs.foldl store_private_channel
          (initialCache none)).privateChannels).length := List.length_map _ _
    rw [h2] at h1
    omega
  · have hinv := privInv_foldl cs (initialCache none) []
      (by refine ⟨?_, ?_, ?_, ?_⟩ <;> simp [initialCache, odKeys])
      (by simpa using hnd)
    intro p hp
    obtain ⟨_, _, _, hby⟩ := hinv
    exact mem_odKeys_of_odGet?_eq_some (hby p hp).2

/-- Witness for C2 with two distinct DM channels: both keys are retained and
the secondary index only references present channel ids. -/
theorem private_channel_capacity_spec_witness :
    (([{ id := 1, isDM := true, recipient := some 10 },
       { id := 2, isDM := true, recipient := some 20 }] : List PChannel).map
      PChannel.id).Nodup ∧
    odKeys ((([{ id := 1, isDM := true, recipient := some 10 },
       { id := 2, isDM := true, recipient := some 20 }] : List PChannel).foldl
        store_private_channel (initialCache none)).privateChannels)
      = (([{ id := 1, isDM := true, recipient := some 10 },
       { id := 2, isDM := true, recipient := some 20 }] : List PChannel).map
          PChannel.id).drop
          (([{ id := 1, isDM := true, recipient := some 10 },
             { id := 2, isDM := true, recipient := some 20 }] : List PChannel).length
            - 128) ∧
    (∀ p ∈ (([{ id := 1, isDM := true, recipient := some 10 },
       { id := 2, isDM := true, recipient := some 20 }] : List PChannel).foldl
        store_private_channel (initialCache none)).privateChannelsByUser,
      p.2.id ∈ odKeys ((([{ id := 1, isDM := true, recipient := some 10 },
        { id := 2, isDM := true, recipient := some 20 }] : List PChannel).foldl
          store_private_channel (initialCache none)).privateChannels)) :=
  have h := private_channel_capacity_spec
    [{ id := 1, isDM := true, recipient := some 10 },
     { id := 2, isDM := true, recipient := some 20 }] (by decide)
  ⟨by decide, h.1, h.2.2⟩

/-! ## Event Bus (`discord/app/event_emitter.py`) -/

/-- The state of an `EventEmitter`.  Event kinds (the `type[Event]` keys),
listener callables and waiter futures are identified by numeric ids.
`events` is the name-to-kinds registry `self._events` (declared on line 46;
`__init__` omits its `= {}` initializer — an annotation-only slip — so the
model takes the mapping the annotation declares), `listeners` the
kind-to-persistent-listeners registry, and `waitFors` the kind-to-pending
one-shot futures registry. -/
structure EmitterState where
  events : List (String × List Nat)
  listeners : List (Nat × List Nat)
  waitFors : List (Nat × List Nat)
deriving DecidableEq

/-- `add_wait_for`: append a freshly created Future (`fut`) to the kind's
pending list, creating the list on KeyError; the future is returned to the
caller. -/
def add_wait_for (st : EmitterState) (event : Nat) (fut : Nat) : EmitterState :=
  match odGet? st.waitFors event with
  | some l => { st with waitFors := odSet st.waitFors event (l ++ [fut]) }
  | none => { st with waitFors := odSet st.waitFors event [fut] }

/-- What one `emit` call produces besides the new state: `tasks` records the
`asyncio.create_task(func(eve))` calls (listener id paired with the
materialized instance handed to it) and `resolved` the
`wait_for.set_result(eve)` calls (future id paired with the instance), in
program order. -/
structure EmitResult (Ev : Type) where
  state : EmitterState
  tasks : List (Nat × Ev)
  resolved : List (Nat × Ev)

/-- One iteration of `emit`'s loop over the kinds registered for the wire
name: materialize via the kind's `__load__` classmethod (`loadFn`, the
external contract); on None skip the kind; otherwise spawn one task per
persistent listener with the instance, then — when the kind has a waiter
list, even an empty one — resolve every pending waiter with the same
instance and pop the kind's entire waiter list. -/
def emitStep {Ev P : Type} (loadFn : Nat → P → Option Ev) (data : P)
    (acc : EmitResult Ev) (event : Nat) : EmitResult Ev :=
  match loadFn event data with
  | none => acc
  | some eve =>
      let funcs := (odGet? acc.state.listeners event).getD []
      let tasks := acc.tasks ++ funcs.map (fun f => (f, eve))
      match odGet? acc.state.waitFors event with
      | none => { state := acc.state, tasks := tasks, resolved := acc.resolved }
      | some wfs =>
          { state := { acc.state with waitFors := odPop acc.state.waitFors event },
            tasks := tasks,
            resolved := acc.resolved ++ wfs.map (fun w => (w, eve)) }

/-- `EventEmitter.emit`: run the loop body for every kind registered under
the wire name (`self._events.get(event_str, [])`). -/
def emit {Ev P : Type} (loadFn : Nat → P → Option Ev) (st : EmitterState)
    (event_str : String) (data : P) : EmitResult Ev :=
  ((odGet? st.events event_str).getD []).foldl (emitStep loadFn data)
    { state := st, tasks := [], resolved := [] }

/-- Frame facts about one loop iteration: listeners are untouched, tasks
only grow, other kinds' waiter lists are untouched, the processed kind's
list is untouched or popped, and any resolution appended names a future from
the processed kind's pending list. -/
theorem emitStep_spec {Ev P : Type} (loadFn : Nat → P → Option Ev) (data : P)
    (acc : EmitResult Ev) (k : Nat) :
    (emitStep loadFn data acc k).state.listeners = acc.state.listeners ∧
    (∃ t2, (emitStep loadFn data acc k).tasks = acc.tasks ++ t2) ∧
    (∀ kk, kk ≠ k → odGet? (emitStep loadFn data acc k).state.waitFors kk
      = odGet? acc.state.waitFors kk) ∧
    (odGet? (emitStep loadFn data acc k).state.waitFors k
        = odGet? acc.state.waitFors k ∨
      odGet? (emitStep loadFn data acc k).state.waitFors k = none) ∧
    (∃ tail, (emitStep loadFn data acc k).resolved = acc.resolved ++ tail ∧
      ∀ w e2, (w, e2) ∈ tail → ∃ l, odGet? acc.state.waitFors k = some l ∧ w ∈ l) := by
  cases hld : loadFn k data with
  | none =>
      have hstep : emitStep loadFn data acc k = acc := by
        simp [emitStep, hld]
      rw [hstep]
      exact ⟨rfl, ⟨[], by simp⟩, fun kk _ => rfl, Or.inl rfl, ⟨[], by simp, by simp⟩⟩
  | some eve =>
      cases hw : odGet? acc.state.waitFors k with
      | none =>
          have hstep : emitStep loadFn data acc k
              = { state := acc.state,
                  tasks := acc.tasks
                    ++ ((odGet? acc.state.listeners k).getD []).map (fun f => (f, eve)),
                  resolved := acc.resolved } := by
            simp [emitStep, hld, hw]
          rw [hstep]
          exact ⟨rfl, ⟨_, rfl⟩, fun kk _ => rfl, Or.inl hw, ⟨[], by simp, by simp⟩⟩
      | some wfs =>
          have hstep : emitStep loadFn data acc k
              = { state := { acc.state with waitFors := odPop acc.state.waitFors k },
                  tasks := acc.tasks
                    ++ ((odGet? acc.state.listeners k).getD []).map (fun f => (f, eve)),
                  resolved := acc.resolved ++ wfs.map (fun w => (w, eve)) } := by
            simp [emitStep, hld, hw]
          rw [hstep]
          refine ⟨rfl, ⟨_, rfl⟩, ?_, ?_, ?_⟩
          · intro kk hkk
            exact odGet?_odPop_ne _ hkk
          · exact Or.inr (odGet?_odPop_self _ _)
          · refine ⟨wfs.map (fun w => (w, eve)), rfl, ?_⟩
            intro w e2 hmem
            rcases List.mem_map.mp hmem with ⟨w2, hw2, he⟩
            cases he
            exact ⟨wfs, rfl, hw2⟩

/-- Folding the loop from a state in which a future is pending nowhere: it
is never resolved, tasks only grow, and emptied waiter lists stay empty. -/
theorem emit_fold_absent {Ev P : Type} (loadFn : Nat → P → Option Ev) (data : P)
    (f : Nat) (ks : List Nat) :
    ∀ acc : EmitResult Ev,
    (∀ k l, odGet? acc.state.waitFors k = some l → f ∉ l) →
    ((∀ k l, odGet? ((ks.foldl (emitStep loadFn data) acc)).state.waitFors k
        = some l → f ∉ l) ∧
     (∀ e2, (f, e2) ∈ (ks.foldl (emitStep loadFn data) acc).resolved →
        (f, e2) ∈ acc.resolved) ∧
     ((ks.foldl (emitStep loadFn data) acc).resolved.countP (fun r => r.1 = f)
        = acc.resolved.countP (fun r => r.1 = f)) ∧
     (∃ t2, (ks.foldl (emitStep loadFn data) acc).tasks = acc.tasks ++ t2) ∧
     (∀ kk, odGet? acc.state.waitFors kk = none →
        odGet? (ks.foldl (emitStep loadFn data) acc).state.waitFors kk = none)) := by
  induction ks with
  | nil =>
      intro acc h
      exact ⟨h, fun e2 he => he, rfl, ⟨[], by simp⟩, fun kk h2 => h2⟩
  | cons k rest ih =>
      intro acc h
      obtain ⟨hlist, ⟨t2, ht2⟩, hother, hself, ⟨tail, htl, htlmem⟩⟩ :=
        emitStep_spec loadFn data acc k
      have habs2 : ∀ k2 l, odGet? (emitStep loadFn data acc k).state.waitFors k2
          = some l → f ∉ l := by
        intro k2 l hl
        by_cases hk2 : k2 = k
        · subst hk2
          rcases hself with h1 | h1
          · rw [h1] at hl
            exact h k2 l hl
          · rw [h1] at hl
            exact Option.noConfusion hl
        · rw [hother k2 hk2] at hl
          exact h k2 l hl
      have hnotail : ∀ r ∈ tail, r.1 ≠ f := by
        intro r hr
        obtain ⟨w, e2⟩ := r
        obtain ⟨l, hl, hwl⟩ := htlmem w e2 hr
        intro he
        exact h k l hl (he ▸ hwl)
      obtain ⟨c1, c2, c3, ⟨t3, ht3⟩, c5⟩ := ih (emitStep loadFn data acc k) habs2
      simp only [List.foldl_cons]
      refine ⟨c1, ?_, ?_, ?_, ?_⟩
      · intro e2 he
        have h2 := c2 e2 he
        rw [htl] at h2
        rcases List.mem_append.mp h2 with h3 | h3
        · exact h3
        · exact absurd rfl (hnotail (f, e2) h3)
      · rw [c3, htl, List.countP_append]
        have hz : tail.countP (fun r => r.1 = f) = 0 :=
          List.countP_eq_zero.mpr (by intro a ha; simpa using hnotail a ha)
        rw [hz, Nat.add_zero]
      · exact ⟨t2 ++ t3, by rw [ht3, ht2, List.append_assoc]⟩
      · intro kk hkk
        apply c5
        by_cases hk2 : kk = k
        · subst hk2
          rcases hself with h1 | h1
          · rw [h1]
            exact hkk
          · exact h1
        · rw [hother kk hk2]
          exact hkk

/-- Main resolution lemma: folding the loop from a state in which the future
is pending exactly once under `kind` and nowhere else, with `kind` among the
remaining kinds and materializing to `ev`: the future is resolved exactly
once, with `ev`, the kind's waiter list is popped, and every persistent
listener of the kind is handed a task carrying the same `ev`. -/
theorem emit_fold_resolves {Ev P : Type} (loadFn : Nat → P → Option Ev) (data : P)
    (kind fut : Nat) (wfs : List Nat) (ev : Ev)
    (hload : loadFn kind data = some ev)
    (hcount : wfs.countP (fun w => w = fut) = 1)
    (ks : List Nat) :
    ∀ acc : EmitResult Ev,
    odGet? acc.state.waitFors kind = some wfs →
    (∀ k2 l2, k2 ≠ kind → odGet? acc.state.waitFors k2 = some l2 → fut ∉ l2) →
    acc.resolved.countP (fun r => r.1 = fut) = 0 →
    (∀ e2, (fut, e2) ∉ acc.resolved) →
    kind ∈ ks →
    ((ks.foldl (emitStep loadFn data) acc).resolved.countP (fun r => r.1 = fut) = 1 ∧
     (∀ e2, (fut, e2) ∈ (ks.foldl (emitStep loadFn data) acc).resolved → e2 = ev) ∧
     odGet? (ks.foldl (emitStep loadFn data) acc).state.waitFors kind = none ∧
     (∀ lid ∈ (odGet? acc.state.listeners kind).getD [],
       (lid, ev) ∈ (ks.foldl (emitStep loadFn data) acc).tasks)) := by
  induction ks with
  | nil =>
      intro acc _ _ _ _ hmem
      cases hmem
  | cons k rest ih =>
      intro acc hw honly hres0 hmem0 hmem
      simp only [List.foldl_cons]
      by_cases hkk : k = kind
      · subst hkk
        have hstep : emitStep loadFn data acc k
            = { state := { acc.state with waitFors := odPop acc.state.waitFors k },
                tasks := acc.tasks
                  ++ ((odGet? acc.state.listeners k).getD []).map (fun f => (f, ev)),
                resolved := acc.resolved ++ wfs.map (fun w => (w, ev)) } := by
          simp [emitStep, hload, hw]
        have habs : ∀ k2 l, odGet? (emitStep loadFn data acc k).state.waitFors k2
            = some l → fut ∉ l := by
          rw [hstep]
          intro k2 l hl
          by_cases hk2 : k2 = k
          · subst hk2
            rw [show odGet? (odPop acc.state.waitFors k2) k2 = none from
              odGet?_odPop_self _ _] at hl
            exact Option.noConfusion hl
          · rw [odGet?_odPop_ne _ hk2] at hl
            exact honly k2 l hk2 hl
        obtain ⟨a1, a2, a3, ⟨t3, ht3⟩, a5⟩ := emit_fold_absent loadFn data fut rest
          (emitStep loadFn data acc k) habs
        refine ⟨?_, ?_, ?_, ?_⟩
        · rw [a3, hstep]
          simp only [List.countP_append]
          rw [hres0, List.countP_map]
          simpa [Function.comp] using hcount
        · intro e2 he
          have h2 := a2 e2 he
          rw [hstep] at h2
          rcases List.mem_append.mp h2 with h3 | h3
          · exact absurd h3 (hmem0 e2)
          · rcases List.mem_map.mp h3 with ⟨w2, _, heq⟩
            cases heq
            rfl
        · apply a5
          rw [hstep]
          exact odGet?_odPop_self _ _
        · intro lid hlid
          rw [ht3, hstep]
          apply List.mem_append_left
          apply List.mem_append_right
          exact List.mem_map_of_mem _ hlid
      · obtain ⟨hlist, ⟨t2, ht2⟩, hother, hself, ⟨tail, htl, htlmem⟩⟩ :=
          emitStep_spec loadFn data acc k
        have hw2 : odGet? (emitStep loadFn data acc k).state.waitFors kind
            = some wfs := by
          rw [hother kind (fun he => hkk he.symm)]
          exact hw
        have honly2 : ∀ k2 l2, k2 ≠ kind →
            odGet? (emitStep loadFn data acc k).state.waitFors k2 = some l2 →
            fut ∉ l2 := by
          intro k2 l2 hk2 hl
          by_cases hq : k2 = k
          · subst hq
            rcases hself with h1 | h1
            · rw [h1] at hl
              exact honly k2 l2 hk2 hl
            · rw [h1] at hl
              exact Option.noConfusion hl
          · rw [hother k2 hq] at hl
            exact honly k2 l2 hk2 hl
        have hnotail : ∀ r ∈ tail, r.1 ≠ fut := by
          intro r hr
          obtain ⟨w, e2⟩ := r
          obtain ⟨l, hl, hwl⟩ := htlmem w e2 hr
          intro he
          exact honly k l hkk hl (he ▸ hwl)
        have hres02 : (emitStep loadFn data acc k).resolved.countP
            (fun r => r.1 = fut) = 0 := by
          rw [htl, List.countP_append, hres0, Nat.zero_add]
          exact List.countP_eq_zero.mpr (by intro a ha; simpa using hnotail a ha)
        have hmem02 : ∀ e2, (fut, e2) ∉ (emitStep loadFn data acc k).resolved := by
          intro e2 hmem2
          rw [htl] at hmem2
          rcases List.mem_append.mp hmem2 with h3 | h3
          · exact hmem0 e2 h3
          · exact hnotail (fut, e2) h3 rfl
        have hmemr : kind ∈ rest := by
          rcases List.mem_cons.mp hmem with h3 | h3
          · exact absurd h3.symm hkk
          · exact h3
        obtain ⟨b1, b2, b3, b4⟩ :=
          ih (emitStep loadFn data acc k) hw2 honly2 hres02 hmem02 hmemr
        refine ⟨b1, b2, b3, ?_⟩
        intro lid hlid
        apply b4
        rw [hlist]
        exact hlid

/-- A freshly created Future registered by `add_wait_for` is pending exactly
once under its kind and nowhere else. -/
theorem add_wait_for_fresh (st : EmitterState) (event fut : Nat)
    (hfresh : ∀ k l, odGet? st.waitFors k = some l → fut ∉ l) :
    ∃ wfs, odGet? (add_wait_for st event fut).waitFors event = some wfs ∧
      fut ∈ wfs ∧ wfs.countP (fun w => w = fut) = 1 ∧
      (∀ k2 l2, k2 ≠ event →
        odGet? (add_wait_for st event fut).waitFors k2 = some l2 → fut ∉ l2) := by
  unfold add_wait_for
  cases hw : odGet? st.waitFors event with
  | some l =>
      refine ⟨l ++ [fut], ?_, by simp, ?_, ?_⟩
      · exact odGet?_odSet_self _ _ _
      · rw [List.countP_append]
        have hz : l.countP (fun w => w = fut) = 0 := by
          refine List.countP_eq_zero.mpr ?_
          intro a ha
          simp only [decide_eq_true_eq]
          intro he
          exact hfresh event l hw (he ▸ ha)
        rw [hz]
        simp
      · intro k2 l2 hk2 hl
        rw [odGet?_odSet_ne _ _ hk2] at hl
        exact hfresh k2 l2 hl
  | none =>
      refine ⟨[fut], ?_, by simp, by simp, ?_⟩
      · exact odGet?_odSet_self _ _ _
      · intro k2 l2 hk2 hl
        rw [odGet?_odSet_ne _ _ hk2] at hl
        exact hfresh k2 l2 hl

/-- C7: for a one-shot waiter (a fresh Future `fut`, pending nowhere before)
created by `add_wait_for` on kind K before a dispatch whose name resolves to
K and whose materialization produces an event: the waiter is resolved
exactly once, with the same materialized instance that is handed to K's
persistent listeners as tasks, and after the dispatch K's pending-waiter
list is gone (popped), so it is empty. -/
theorem await_once_resolution {Ev P : Type} (loadFn : Nat → P → Option Ev)
    (st : EmitterState) (name : String) (data : P) (kind fut : Nat) (ev : Ev)
    (hfresh : ∀ k l, odGet? st.waitFors k = some l → fut ∉ l)
    (hk : kind ∈ (odGet? st.events name).getD [])
    (hload : loadFn kind data = some ev) :
    ((emit loadFn (add_wait_for st kind fut) name data).resolved.countP
      (fun r => r.1 = fut)) = 1 ∧
    (∀ e2, (fut, e2) ∈ (emit loadFn (add_wait_for st kind fut) name data).resolved →
      e2 = ev) ∧
    odGet? (emit loadFn (add_wait_for st kind fut) name data).state.waitFors kind
      = none ∧
    (∀ lid ∈ (odGet? st.listeners kind).getD [],
      (lid, ev) ∈ (emit loadFn (add_wait_for st kind fut) name data).tasks) := by
  obtain ⟨wfs, hw, _, hcount, honly⟩ := add_wait_for_fresh st kind fut hfresh
  have hev : (add_wait_for st kind fut).events = st.events := by
    unfold add_wait_for
    cases odGet? st.waitFors kind <;> rfl
  have hls : (add_wait_for st kind fut).listeners = st.listeners := by
    unfold add_wait_for
    cases odGet? st.waitFors kind <;> rfl
  unfold emit
  rw [hev]
  have hmain := emit_fold_resolves loadFn data kind fut wfs ev hload hcount
    ((odGet? st.events name).getD [])
    { state := add_wait_for st kind fut, tasks := [], resolved := [] }
    hw honly (by simp) (by simp) hk
  refine ⟨hmain.1, hmain.2.1, hmain.2.2.1, ?_⟩
  intro lid hlid
  apply hmain.2.2.2
  show lid ∈ (odGet? (add_wait_for st kind fut).listeners kind).getD []
  rw [hls]
  exact hlid

/-- Witness for C7: kind 5 is registered under wire name "X" with one
persistent listener 77; the fresh future 9 awaits kind 5; payload 10
materializes to instance 11. -/
theorem await_once_resolution_witness :
    ((emit (fun k d => if k = 5 then some (d + 1) else none)
        (add_wait_for
          { events := [("X", [5])], listeners := [(5, [77])], waitFors := [] } 5 9)
        "X" 10).resolved.countP (fun r => r.1 = 9)) = 1 ∧
    odGet? (emit (fun k d => if k = 5 then some (d + 1) else none)
        (add_wait_for
          { events := [("X", [5])], listeners := [(5, [77])], waitFors := [] } 5 9)
        "X" 10).state.waitFors 5 = none ∧
    (77, 11) ∈ (emit (fun k d => if k = 5 then some (d + 1) else none)
        (add_wait_for
          { events := [("X", [5])], listeners := [(5, [77])], waitFors := [] } 5 9)
        "X" 10).tasks := by
  have h := await_once_resolution (fun k d => if k = 5 then some (d + 1) else none)
    { events := [("X", [5])], listeners := [(5, [77])], waitFors := [] } "X" 10 5 9 11
    (by intro k l hl; simp [odGet?] at hl)
    (by decide) (by decide)
  exact ⟨h.1, h.2.2.1, h.2.2.2 77 (by decide)⟩
